import Mathlib

/-!
Verification of the Morse transcoder and telegraph-key keyer logic of
`src/App.tsx` (a React single-page Morse encoder/decoder).

The transcoder is embedded shallowly: JavaScript objects built from literal
key/value pairs (and from `reduce` with spread, where a later binding for the
same key overwrites an earlier one) are modelled as association lists looked
up by `recordGet`, which returns the value of the last matching binding.
JavaScript string operations are modelled over `List Char`:
`split(' ')` by `splitChar`, `join(' ')` by `joinSepL`, `join('')` by
`joinStr`, `trim()` by `jsTrimL` (drop whitespace at both ends), and
`toUpperCase()` by mapping `Char.toUpper` (exact on the ASCII inputs the
tables use).

The keyer (`handleKeyDown` / `handleKeyUp` / the 600 ms commit `setTimeout`)
is embedded as a pure state machine on `KeyerState`; the pending timeout is
the `timerDeadline` field (`some d` means a commit callback is scheduled for
time `d`, `none` means no timer is pending), and timer firing is modelled by
`fireTimerIfDue`, applied before a later event whose time has passed the
deadline.  The audio oscillator is abstracted to the `toneOn` flag.
-/

/-- Lookup in a JavaScript record modelled as an association list: the value
of the last binding whose key matches, as produced by an object literal or by
`reduce` with spread where later bindings overwrite earlier ones. -/
def recordGet {α β : Type} [DecidableEq α] (ps : List (α × β)) (x : α) : Option β :=
  ps.foldl (fun acc p => if p.1 = x then some p.2 else acc) none

/-- The `MORSE_MAP` object literal of `App.tsx`, in source order. -/
def morsePairs : List (Char × String) :=
  [('A', ".-"), ('B', "-..."), ('C', "-.-."), ('D', "-.."), ('E', "."), ('F', "..-."),
   ('G', "--."), ('H', "...."), ('I', ".."), ('J', ".---"), ('K', "-.-"), ('L', ".-.."),
   ('M', "--"), ('N', "-."), ('O', "---"), ('P', ".--."), ('Q', "--.-"), ('R', ".-."),
   ('S', "..."), ('T', "-"), ('U', "..-"), ('V', "...-"), ('W', ".--"), ('X', "-..-"),
   ('Y', "-.--"), ('Z', "--.."), ('0', "-----"), ('1', ".----"), ('2', "..---"),
   ('3', "...--"), ('4', "....-"), ('5', "....."), ('6', "-...."), ('7', "--..."),
   ('8', "---.."), ('9', "----."), (' ', "/")]

/-- Lookup `MORSE_MAP[c]`: `some` pattern when present, `none` when absent. -/
def MORSE_MAP (c : Char) : Option String := recordGet morsePairs c

/-- The list `Object.entries(MORSE_MAP)` with key and value swapped, in source order;
the `reduce` of `App.tsx` inserts these bindings left to right. -/
def reversePairs : List (String × Char) := morsePairs.map (fun p => (p.2, p.1))

/-- Lookup `REVERSE_MORSE_MAP[m]` in the record built by the `reduce`. -/
def REVERSE_MORSE_MAP (m : String) : Option Char := recordGet reversePairs m

/-- JavaScript `s.split(sep)` for a single-character separator, over the char list:
`[] ↦ [[]]` (JavaScript `''.split(' ') = ['']`), and each separator
occurrence starts a new (possibly empty) piece. -/
def splitChar (sep : Char) : List Char → List (List Char)
  | [] => [[]]
  | c :: cs =>
    match splitChar sep cs with
    | [] => [[c]]
    | t :: ts => if c = sep then [] :: t :: ts else (c :: t) :: ts

/-- JavaScript `pieces.join(' ')` over char lists: pieces separated by single spaces. -/
def joinSepL : List (List Char) → List Char
  | [] => []
  | [p] => p
  | p :: ps => p ++ ' ' :: joinSepL ps

/-- JavaScript `s.trim()`: drop whitespace from both ends. -/
def jsTrimL (l : List Char) : List Char :=
  ((l.dropWhile Char.isWhitespace).reverse.dropWhile Char.isWhitespace).reverse

/-- JavaScript `text.toUpperCase()`, character by character (exact on ASCII). -/
def jsToUpperString (s : String) : String := ⟨s.data.map Char.toUpper⟩

/-- The token `MORSE_MAP[char] || ''` contributed by one (already
uppercased) character, as a char list; every stored pattern is a nonempty
string, so the `|| ''` fallback fires exactly when the key is absent. -/
def encTok (c : Char) : List Char := ((MORSE_MAP c).getD "").data

/-- The per-character token list of
`text.toUpperCase().split('').map(char => MORSE_MAP[char] || '')`. -/
def encodeTokens (text : String) : List (List Char) :=
  (jsToUpperString text).data.map encTok

/-- Function `encodeMorse` of `App.tsx`:
`text.toUpperCase().split('').map(char => MORSE_MAP[char] || '').join(' ').trim()`. -/
def encodeMorse (text : String) : String :=
  ⟨jsTrimL (joinSepL (encodeTokens text))⟩

/-- One decoded token:
`REVERSE_MORSE_MAP[code] || (code === '/' ? ' ' : '?')`.  Every stored value
is a nonempty one-character string (truthy), so the fallback fires exactly
when the lookup misses. -/
def decodeToken (code : String) : String :=
  match REVERSE_MORSE_MAP code with
  | some ch => String.singleton ch
  | none => if code = "/" then " " else "?"

/-- JavaScript `morse.split(' ')` as a list of strings. -/
def splitSp (s : String) : List String :=
  (splitChar ' ' s.data).map (fun l => ⟨l⟩)

/-- JavaScript `arr.join('')`. -/
def joinStr : List String → String
  | [] => ""
  | s :: ss => s ++ joinStr ss

/-- Function `decodeMorse` of `App.tsx`:
`morse.split(' ').map(code => REVERSE_MORSE_MAP[code] || (code === '/' ? ' ' : '?')).join('')`. -/
def decodeMorse (morse : String) : String :=
  joinStr ((splitSp morse).map decodeToken)

/-- The characters the spec calls supported: A-Z, a-z, 0-9 and space. -/
def supportedChars : List Char :=
  "ABCDEFGHIJKLMNOPQRSTUVWXYZabcdefghijklmnopqrstuvwxyz0123456789 ".data

/-- The string S with every character absent from the alphabet table
removed (the comparison string of the silent-dropping claim). -/
def removeUnsupported (s : String) : String :=
  ⟨s.data.filter (fun c => (MORSE_MAP c).isSome)⟩

/-! ### Generic facts about record lookup -/

theorem recordGet_foldl_mem {α β : Type} [DecidableEq α] :
    ∀ (ps : List (α × β)) (acc : Option β) (x : α) (v : β),
      ps.foldl (fun a p => if p.1 = x then some p.2 else a) acc = some v →
      (x, v) ∈ ps ∨ acc = some v := by
  intro ps
  induction ps with
  | nil => intro acc x v h; exact Or.inr h
  | cons p ps ih =>
    intro acc x v h
    rw [List.foldl_cons] at h
    rcases ih _ x v h with h1 | h2
    · exact Or.inl (List.mem_cons_of_mem _ h1)
    · by_cases hx : p.1 = x
      · left
        rw [if_pos hx] at h2
        have hv : p.2 = v := Option.some.inj h2
        have hp : p = (x, v) := by
          obtain ⟨a, b⟩ := p
          simp only at hx hv
          rw [hx, hv]
        rw [← hp]
        exact List.mem_cons_self p ps
      · right
        rwa [if_neg hx] at h2

theorem recordGet_mem {α β : Type} [DecidableEq α] {ps : List (α × β)} {x : α} {v : β}
    (h : recordGet ps x = some v) : (x, v) ∈ ps := by
  rcases recordGet_foldl_mem ps none x v h with h1 | h2
  · exact h1
  · exact absurd h2 (by simp)

theorem recordGet_foldl_not_mem {α β : Type} [DecidableEq α] :
    ∀ (ps : List (α × β)) (x : α), x ∉ ps.map Prod.fst →
      ∀ acc, ps.foldl (fun a p => if p.1 = x then some p.2 else a) acc = acc := by
  intro ps
  induction ps with
  | nil => intro x _ acc; rfl
  | cons p ps ih =>
    intro x hx acc
    rw [List.foldl_cons]
    have hne : p.1 ≠ x := by
      intro e
      exact hx (by rw [List.map_cons, e]; exact List.mem_cons_self x _)
    have hx2 : x ∉ ps.map Prod.fst := fun m => hx (by rw [List.map_cons]; exact List.mem_cons_of_mem _ m)
    rw [if_neg hne]
    exact ih x hx2 acc

theorem recordGet_eq_none {α β : Type} [DecidableEq α] {ps : List (α × β)} {x : α}
    (h : x ∉ ps.map Prod.fst) : recordGet ps x = none :=
  recordGet_foldl_not_mem ps x h none

/-! ### Facts about split, join and trim -/

theorem splitChar_ne_nil (sep : Char) (l : List Char) : splitChar sep l ≠ [] := by
  cases l with
  | nil => simp [splitChar]
  | cons c cs =>
    simp only [splitChar]
    cases h : splitChar sep cs with
    | nil => simp
    | cons t ts => by_cases hc : c = sep <;> simp [hc]

theorem splitChar_eq_single {p : List Char} (h : ' ' ∉ p) : splitChar ' ' p = [p] := by
  induction p with
  | nil => rfl
  | cons c cs ih =>
    have hc : c ≠ ' ' := fun e => h (e ▸ List.mem_cons_self c cs)
    have hcs : ' ' ∉ cs := fun m => h (List.mem_cons_of_mem _ m)
    simp only [splitChar, ih hcs]
    rw [if_neg hc]

theorem splitChar_append_sep {p : List Char} (h : ' ' ∉ p) :
    ∀ l, splitChar ' ' (p ++ ' ' :: l) = p :: splitChar ' ' l := by
  induction p with
  | nil =>
    intro l
    simp only [List.nil_append, splitChar]
    cases hl : splitChar ' ' l with
    | nil => exact absurd hl (splitChar_ne_nil ' ' l)
    | cons t ts => simp
  | cons c cs ih =>
    intro l
    have hc : c ≠ ' ' := fun e => h (e ▸ List.mem_cons_self c cs)
    have hcs : ' ' ∉ cs := fun m => h (List.mem_cons_of_mem _ m)
    rw [List.cons_append]
    simp only [splitChar]
    rw [ih hcs l]
    simp [hc]

theorem splitChar_joinSepL :
    ∀ (pieces : List (List Char)), pieces ≠ [] → (∀ p ∈ pieces, ' ' ∉ p) →
      splitChar ' ' (joinSepL pieces) = pieces := by
  intro pieces
  induction pieces with
  | nil => intro h; exact absurd rfl h
  | cons p ps ih =>
    intro _ hall
    cases ps with
    | nil => exact splitChar_eq_single (hall p (List.mem_cons_self p []))
    | cons q ps2 =>
      have hj : joinSepL (p :: q :: ps2) = p ++ ' ' :: joinSepL (q :: ps2) := rfl
      rw [hj, splitChar_append_sep (hall p (List.mem_cons_self p _)),
        ih (by simp) (fun x hx => hall x (List.mem_cons_of_mem _ hx))]

theorem jsTrimL_eq_self {l : List Char}
    (hhd : ∀ c, l.head? = some c → c.isWhitespace = false)
    (hlast : ∀ c, l.getLast? = some c → c.isWhitespace = false) :
    jsTrimL l = l := by
  cases l with
  | nil => rfl
  | cons a t =>
    have ha : a.isWhitespace = false := hhd a rfl
    unfold jsTrimL
    rw [List.dropWhile_cons, ha]
    simp only [Bool.false_eq_true, if_false]
    rcases List.eq_nil_or_concat (a :: t) with h | ⟨m, b, hmb⟩
    · exact absurd h (by simp)
    · rw [List.concat_eq_append] at hmb
      have hb : b.isWhitespace = false := hlast b (by rw [hmb]; exact List.getLast?_concat m)
      rw [hmb, List.reverse_append, List.reverse_singleton, List.singleton_append,
        List.dropWhile_cons, hb]
      simp

theorem joinSepL_cons_ex (p : List Char) (ps : List (List Char)) :
    ∃ X, joinSepL (p :: ps) = p ++ X := by
  cases ps with
  | nil => exact ⟨[], by simp [joinSepL]⟩
  | cons q r => exact ⟨' ' :: joinSepL (q :: r), rfl⟩

theorem joinSepL_concat_ex :
    ∀ (ps : List (List Char)) (p : List Char), ∃ pre, joinSepL (ps ++ [p]) = pre ++ p := by
  intro ps
  induction ps with
  | nil => intro p; exact ⟨[], by simp [joinSepL]⟩
  | cons q ps ih =>
    intro p
    obtain ⟨pre, hpre⟩ := ih p
    cases hps : ps ++ [p] with
    | nil => exact absurd hps (by simp)
    | cons y l =>
      refine ⟨q ++ ' ' :: pre, ?_⟩
      have e1 : joinSepL (q :: ps ++ [p]) = q ++ ' ' :: joinSepL (ps ++ [p]) := by
        rw [List.cons_append, hps]; rfl
      rw [e1, hpre]
      simp

theorem joinSepL_boundaries (ts : List (List Char)) (hne : ts ≠ [])
    (hall : ∀ tk ∈ ts, tk ≠ [] ∧ ∀ ch ∈ tk, ch.isWhitespace = false) :
    joinSepL ts ≠ [] ∧
    (∀ c, (joinSepL ts).head? = some c → c.isWhitespace = false) ∧
    (∀ c, (joinSepL ts).getLast? = some c → c.isWhitespace = false) := by
  obtain ⟨p, ps, rfl⟩ := List.exists_cons_of_ne_nil hne
  obtain ⟨X, hX⟩ := joinSepL_cons_ex p ps
  have hp := hall p (List.mem_cons_self p ps)
  obtain ⟨a, p2, hap⟩ := List.exists_cons_of_ne_nil hp.1
  have ha : a.isWhitespace = false := hp.2 a (by rw [hap]; exact List.mem_cons_self a p2)
  refine ⟨?_, ?_, ?_⟩
  · rw [hX, hap]; simp
  · intro c hc
    rw [hX, hap, List.cons_append, List.head?_cons] at hc
    rw [← Option.some.inj hc]
    exact ha
  · rcases List.eq_nil_or_concat (p :: ps) with h | ⟨ini, lastp, hc0⟩
    · exact absurd h (by simp)
    · rw [List.concat_eq_append] at hc0
      have hlmem : lastp ∈ p :: ps := by rw [hc0]; simp
      have hl := hall lastp hlmem
      obtain ⟨pre, hpre⟩ := joinSepL_concat_ex ini lastp
      intro c hc
      rw [hc0, hpre, List.getLast?_append_of_ne_nil pre hl.1] at hc
      exact hl.2 c (by
        have := List.mem_getLast?_eq_getLast hc
        obtain ⟨hne2, hg⟩ := this
        rw [hg]
        exact List.getLast_mem hne2)

theorem encode_core (ts : List (List Char)) (hne : ts ≠ [])
    (hall : ∀ tk ∈ ts, tk ≠ [] ∧ ∀ ch ∈ tk, ch.isWhitespace = false) :
    jsTrimL (joinSepL ts) = joinSepL ts ∧ splitChar ' ' (joinSepL ts) = ts := by
  have hb := joinSepL_boundaries ts hne hall
  refine ⟨jsTrimL_eq_self hb.2.1 hb.2.2, ?_⟩
  apply splitChar_joinSepL ts hne
  intro p hp hsp
  exact absurd ((hall p hp).2 ' ' hsp) (by decide)

/-! ### Concrete facts about the Morse tables -/

theorem morse_values_ok :
    ∀ p ∈ morsePairs, p.2.data ≠ [] ∧ (∀ ch ∈ p.2.data, ch.isWhitespace = false) ∧
      decodeToken p.2 = String.singleton p.1 := by decide

theorem supported_to_table : ∀ c ∈ supportedChars, (MORSE_MAP c.toUpper).isSome := by decide

theorem encTok_spec {c : Char} (h : (MORSE_MAP c).isSome) :
    ∃ m : String, MORSE_MAP c = some m ∧ (c, m) ∈ morsePairs ∧ encTok c = m.data := by
  obtain ⟨m, hm⟩ := Option.isSome_iff_exists.mp h
  exact ⟨m, hm, recordGet_mem hm, by simp [encTok, hm]⟩

theorem encodeTokens_eq (text : String) :
    encodeTokens text = text.data.map (fun c => encTok c.toUpper) := by
  simp [encodeTokens, jsToUpperString, List.map_map, Function.comp]

theorem tokens_ok {cs : List Char} (hsup : ∀ c ∈ cs, (MORSE_MAP c.toUpper).isSome) :
    ∀ tk ∈ cs.map (fun c => encTok c.toUpper),
      tk ≠ [] ∧ ∀ ch ∈ tk, ch.isWhitespace = false := by
  intro tk htk
  obtain ⟨c, hc, rfl⟩ := List.mem_map.mp htk
  obtain ⟨m, _, hmem, htok⟩ := encTok_spec (hsup c hc)
  have hv := morse_values_ok (c.toUpper, m) hmem
  rw [htok]
  exact ⟨hv.1, hv.2.1⟩

theorem decodeToken_encTok {c : Char} (h : (MORSE_MAP c.toUpper).isSome) :
    decodeToken ⟨encTok c.toUpper⟩ = String.singleton c.toUpper := by
  obtain ⟨m, _, hmem, htok⟩ := encTok_spec h
  rw [htok]
  have he : (⟨m.data⟩ : String) = m := rfl
  rw [he]
  exact (morse_values_ok (c.toUpper, m) hmem).2.2

theorem joinStr_singleton_map (f : Char → Char) :
    ∀ l : List Char, joinStr (l.map (fun c => String.singleton (f c))) = ⟨l.map f⟩ := by
  intro l
  induction l with
  | nil => rfl
  | cons c cs ih =>
    rw [List.map_cons]
    show String.singleton (f c) ++ joinStr (cs.map (fun c => String.singleton (f c)))
      = ⟨f c :: cs.map f⟩
    rw [ih]
    rfl

/-- Core round-trip fact: on a nonempty string whose characters all have a
table entry after uppercasing, decoding the encoding gives the uppercased
string. -/
theorem decode_encode_aux (S : String) (hne : S.data ≠ [])
    (hsup : ∀ c ∈ S.data, (MORSE_MAP c.toUpper).isSome) :
    decodeMorse (encodeMorse S) = jsToUpperString S := by
  have hTok := encodeTokens_eq S
  set ts := S.data.map (fun c => encTok c.toUpper) with hts
  have htsne : ts ≠ [] := by
    cases hdata : S.data with
    | nil => exact absurd hdata hne
    | cons a l => rw [hts, hdata]; simp
  have hall := tokens_ok hsup
  rw [← hts] at hall
  have hcore := encode_core ts htsne hall
  have henc : encodeMorse S = ⟨joinSepL ts⟩ := by
    unfold encodeMorse
    rw [hTok, hcore.1]
  rw [henc]
  unfold decodeMorse splitSp
  show joinStr (((splitChar ' ' (joinSepL ts)).map (fun l => (⟨l⟩ : String))).map decodeToken)
    = jsToUpperString S
  rw [hcore.2, hts, List.map_map, List.map_map]
  simp only [Function.comp_def]
  have hcong : ∀ c ∈ S.data,
      decodeToken ⟨encTok c.toUpper⟩ = String.singleton c.toUpper := by
    intro c hc
    exact decodeToken_encTok (hsup c hc)
  rw [List.map_congr_left hcong]
  exact joinStr_singleton_map Char.toUpper S.data

/-! ### Empty tokens and the surrounding spaces they leave -/

theorem joinSepL_empties_before :
    ∀ (ep : List (List Char)), (∀ x ∈ ep, x = []) →
      ∀ (ts : List (List Char)), ts ≠ [] →
        joinSepL (ep ++ ts) = ep.map (fun _ => ' ') ++ joinSepL ts := by
  intro ep
  induction ep with
  | nil => intro _ ts _; simp
  | cons e ep ih =>
    intro hep ts hts
    have he : e = [] := hep e (List.mem_cons_self e ep)
    have hep2 : ∀ x ∈ ep, x = [] := fun x hx => hep x (List.mem_cons_of_mem _ hx)
    cases hcase : ep ++ ts with
    | nil => exact absurd (List.append_eq_nil.mp hcase).2 hts
    | cons y l =>
      rw [List.cons_append, hcase]
      have e1 : joinSepL (e :: y :: l) = e ++ ' ' :: joinSepL (y :: l) := rfl
      rw [e1, he, ← hcase, ih hep2 ts hts]
      simp

theorem joinSepL_all_empty :
    ∀ (es : List (List Char)), (∀ x ∈ es, x = []) →
      ∀ t, joinSepL (t :: es) = t ++ es.map (fun _ => ' ') := by
  intro es
  induction es with
  | nil => intro _ t; simp [joinSepL]
  | cons e es ih =>
    intro h t
    have he : e = [] := h e (List.mem_cons_self e es)
    have h2 : ∀ x ∈ es, x = [] := fun x hx => h x (List.mem_cons_of_mem _ hx)
    have e1 : joinSepL (t :: e :: es) = t ++ ' ' :: joinSepL (e :: es) := rfl
    rw [e1, ih h2 e, he]
    simp

theorem joinSepL_empties_after :
    ∀ (ts : List (List Char)), ts ≠ [] →
      ∀ (es : List (List Char)), (∀ x ∈ es, x = []) →
        joinSepL (ts ++ es) = joinSepL ts ++ es.map (fun _ => ' ') := by
  intro ts
  induction ts with
  | nil => intro h; exact absurd rfl h
  | cons t ts ih =>
    intro _ es hes
    cases ts with
    | nil => simpa using joinSepL_all_empty es hes t
    | cons t2 ts2 =>
      have e1 : joinSepL (t :: t2 :: (ts2 ++ es)) = t ++ ' ' :: joinSepL (t2 :: (ts2 ++ es)) := rfl
      have e2 : (t :: t2 :: ts2) ++ es = t :: t2 :: (ts2 ++ es) := by simp
      have e3 : (t2 :: ts2) ++ es = t2 :: (ts2 ++ es) := by simp
      rw [e2, e1, ← e3, ih (by simp) es hes]
      have e4 : joinSepL (t :: t2 :: ts2) = t ++ ' ' :: joinSepL (t2 :: ts2) := rfl
      rw [e4]
      simp

theorem dropWhile_ws_append {w1 : List Char} (hw : ∀ c ∈ w1, c.isWhitespace = true) :
    ∀ l, (w1 ++ l).dropWhile Char.isWhitespace = l.dropWhile Char.isWhitespace := by
  induction w1 with
  | nil => intro l; rfl
  | cons a w1 ih =>
    intro l
    have ha := hw a (List.mem_cons_self a w1)
    rw [List.cons_append, List.dropWhile_cons, ha]
    simp only [if_true]
    exact ih (fun c hc => hw c (List.mem_cons_of_mem _ hc)) l

theorem jsTrimL_padded {w1 w2 m : List Char}
    (hw1 : ∀ c ∈ w1, c.isWhitespace = true) (hw2 : ∀ c ∈ w2, c.isWhitespace = true)
    (hm : m ≠ [])
    (hhd : ∀ c, m.head? = some c → c.isWhitespace = false)
    (hlast : ∀ c, m.getLast? = some c → c.isWhitespace = false) :
    jsTrimL (w1 ++ m ++ w2) = m := by
  obtain ⟨a, t, rfl⟩ := List.exists_cons_of_ne_nil hm
  have ha : a.isWhitespace = false := hhd a rfl
  unfold jsTrimL
  rw [List.append_assoc, dropWhile_ws_append hw1, List.cons_append, List.dropWhile_cons, ha]
  simp only [Bool.false_eq_true, if_false]
  have e2 : (a :: (t ++ w2)) = (a :: t) ++ w2 := by simp
  rw [e2, List.reverse_append,
    dropWhile_ws_append (fun c hc => hw2 c (List.mem_reverse.mp hc))]
  rcases List.eq_nil_or_concat (a :: t) with h | ⟨ini, b, hc⟩
  · exact absurd h (by simp)
  · rw [List.concat_eq_append] at hc
    have hb : b.isWhitespace = false := hlast b (by rw [hc]; exact List.getLast?_concat ini)
    rw [hc, List.reverse_append, List.reverse_singleton, List.singleton_append,
      List.dropWhile_cons, hb]
    simp

/-! ### The telegraph-key keyer -/

/-- The keyer-relevant component state of `App`: the Morse input field, the
mute flag, the signal lamp flag, the `lastPressTime` timestamp, the
in-progress dot/dash buffer `currentSequence`, the pending commit timeout
(`some d` = `timeoutRef` holds a timer due at time `d`, `none` = no pending
timer), and whether the oscillator tone is playing.  Times are integer
milliseconds as returned by `Date.now()`. -/
structure KeyerState where
  inputMorse : String
  isMuted : Bool
  signalActive : Bool
  lastPressTime : Int
  currentSequence : String
  timerDeadline : Option Int
  toneOn : Bool
deriving Repr, DecidableEq

/-- Handler `handleKeyDown` of `App.tsx`: bail out when muted; otherwise activate
the signal, start the tone, record the press time, and clear any pending
commit timeout. -/
def handleKeyDown (now : Int) (s : KeyerState) : KeyerState :=
  if s.isMuted then s
  else { s with signalActive := true, toneOn := true,
                lastPressTime := now, timerDeadline := none }

/-- The body of the 600 ms `setTimeout` callback in `handleKeyUp`: if the
in-progress buffer is nonempty, append it to the Morse field (with a
separating space when the field is nonempty) and clear the buffer. -/
def commitFlush (s : KeyerState) : KeyerState :=
  if s.currentSequence ≠ "" then
    { s with
      inputMorse :=
        if s.inputMorse ≠ "" then s.inputMorse ++ " " ++ s.currentSequence
        else s.currentSequence,
      currentSequence := "",
      timerDeadline := none }
  else { s with timerDeadline := none }

/-- Handler `handleKeyUp` of `App.tsx`: deactivate the signal, stop the tone,
classify the press duration as a dot (`< 200` ms) or a dash, append the
symbol to the in-progress buffer, and (re)start the 600 ms commit timeout. -/
def handleKeyUp (now : Int) (s : KeyerState) : KeyerState :=
  let duration := now - s.lastPressTime
  let symbol := if duration < 200 then "." else "-"
  { s with signalActive := false, toneOn := false,
           currentSequence := s.currentSequence ++ symbol,
           timerDeadline := some (now + 600) }

/-- The scheduler: a pending commit timeout whose deadline has been reached
by time `now` fires (runs `commitFlush`) before any event at `now` is
handled; a cancelled or absent timer never fires. -/
def fireTimerIfDue (now : Int) (s : KeyerState) : KeyerState :=
  match s.timerDeadline with
  | some d => if d ≤ now then commitFlush s else s
  | none => s

/-- A user interaction with the telegraph key at a given time. -/
inductive KeyEvent where
  | down (t : Int)
  | up (t : Int)
deriving Repr, DecidableEq

/-- Process one event: first let a due timer fire, then run the handler. -/
def step (s : KeyerState) (e : KeyEvent) : KeyerState :=
  match e with
  | .down t => handleKeyDown t (fireTimerIfDue t s)
  | .up t => handleKeyUp t (fireTimerIfDue t s)

/-- Process a time-ordered event list. -/
def run (s : KeyerState) (es : List KeyEvent) : KeyerState := es.foldl step s

/-! ### Remaining helpers -/

theorem data_ne_nil_of_ne_empty {s : String} (h : s ≠ "") : s.data ≠ [] := by
  intro hd
  apply h
  have he : s = ⟨s.data⟩ := rfl
  rw [he, hd]

theorem decodeToken_length (code : String) : (decodeToken code).length = 1 := by
  unfold decodeToken
  cases h : REVERSE_MORSE_MAP code with
  | some ch => rfl
  | none =>
    by_cases hc : code = "/"
    · rw [if_pos hc]; rfl
    · rw [if_neg hc]; rfl

theorem joinStr_length : ∀ l : List String, (joinStr l).length = (l.map String.length).sum := by
  intro l
  induction l with
  | nil => rfl
  | cons s ss ih => simp [joinStr, String.length_append, ih]

theorem sum_length_decode : ∀ l : List String,
    ((l.map decodeToken).map String.length).sum = l.length := by
  intro l
  induction l with
  | nil => rfl
  | cons a l ih =>
    simp only [List.map_cons, List.sum_cons, decodeToken_length, List.length_cons]
    rw [ih]
    omega

/-! ### Claims -/

/-- C1 (counterexample): the round trip fails on the empty string, which is
(vacuously) composed only of supported characters: `decode(encode(""))` is
`"?"`, not the uppercased `""`. -/
theorem c1_empty_cex :
    decodeMorse (encodeMorse "") = "?" ∧ jsToUpperString "" = "" ∧
    decodeMorse (encodeMorse "") ≠ jsToUpperString "" := by decide

/-- C1 (amended): for every nonempty string S composed only of supported
characters (A-Z, a-z, 0-9, space), decode(encode(S)) equals the uppercased
S. -/
theorem c1_roundtrip_amended (S : String) (hne : S ≠ "")
    (hsup : ∀ c ∈ S.data, c ∈ supportedChars) :
    decodeMorse (encodeMorse S) = jsToUpperString S := by
  apply decode_encode_aux S (data_ne_nil_of_ne_empty hne)
  intro c hc
  exact supported_to_table c (hsup c hc)

theorem c1_roundtrip_amended_witness :
    decodeMorse (encodeMorse "Sos 123") = jsToUpperString "Sos 123" ∧
    jsToUpperString "Sos 123" = "SOS 123" :=
  ⟨c1_roundtrip_amended "Sos 123" (by decide) (by decide), by decide⟩

/-- C2: decode is total and produces exactly one output character per
space-separated token: a token in the inverse table yields its character,
the token `/` yields a space, any other token yields `?`; in particular
`decode("!!!") = "?"` and
`decode("... --- ... / -.-. --- -- --") = "SOS COMM"`. -/
theorem c2_decode_total :
    (∀ s : String, (decodeMorse s).length = (splitSp s).length) ∧
    (∀ p ∈ morsePairs, decodeToken p.2 = String.singleton p.1) ∧
    decodeToken "/" = " " ∧
    (∀ code : String, code ∉ morsePairs.map Prod.snd → code ≠ "/" → decodeToken code = "?") ∧
    decodeMorse "!!!" = "?" ∧
    decodeMorse "... --- ... / -.-. --- -- --" = "SOS COMM" := by
  refine ⟨?_, fun p hp => (morse_values_ok p hp).2.2, by decide, ?_, by decide, by decide⟩
  · intro s
    rw [decodeMorse, joinStr_length, sum_length_decode]
  · intro code hcode hslash
    have hkeys : reversePairs.map Prod.fst = morsePairs.map Prod.snd := by
      simp [reversePairs, List.map_map, Function.comp_def]
    have hnone : REVERSE_MORSE_MAP code = none := by
      apply recordGet_eq_none
      rw [hkeys]
      exact hcode
    unfold decodeToken
    rw [hnone, if_neg hslash]

theorem c2_decode_total_witness :
    (decodeMorse "-.-. --- -- --").length = (splitSp "-.-. --- -- --").length ∧
    decodeToken "..." = String.singleton 'S' ∧
    decodeToken "...-..." = "?" :=
  ⟨c2_decode_total.1 "-.-. --- -- --",
   c2_decode_total.2.1 ('S', "...") (by decide),
   c2_decode_total.2.2.2.1 "...-..." (by decide) (by decide)⟩

/-- C9: decoding the empty string yields `"?"`, not `""`: splitting `""` on
spaces gives the single empty token, which is absent from the inverse table;
hence also `decode(encode("")) = "?"`. -/
theorem c9_decode_empty :
    decodeMorse "" = "?" ∧ decodeMorse "" ≠ "" ∧ splitSp "" = [""] ∧
    REVERSE_MORSE_MAP "" = none ∧ decodeMorse (encodeMorse "") = "?" := by decide

/-- C3 (counterexample): dropping the unsupported interior character of
`"A!B"` does not leave the encoding unchanged: the empty token contributes
an extra separating space, so `encode("A!B")` has a double space where
`encode("AB")` has a single one. -/
theorem c3_interior_drop_cex :
    removeUnsupported "A!B" = "AB" ∧
    encodeMorse "A!B" = ".-  -..." ∧
    encodeMorse "AB" = ".- -..." ∧
    encodeMorse "A!B" ≠ encodeMorse (removeUnsupported "A!B") := by decide

/-- C3 (amended): a character without a table entry (after uppercasing)
contributes an empty token; trimming removes the resulting spaces only at
the ends, so unsupported characters are dropped without trace exactly when
they occur at the ends: for strings P and Q of unsupported characters and a
nonempty supported M, encode(P ++ M ++ Q) = encode(M): interior unsupported
characters instead leave an extra separating space (see the counterexample);
in particular encode("SOS") = "... --- ...". -/
theorem c3_boundary_drop_amended (P M Q : String) (hM : M ≠ "")
    (hsup : ∀ c ∈ M.data, (MORSE_MAP c.toUpper).isSome)
    (hP : ∀ c ∈ P.data, MORSE_MAP c.toUpper = none)
    (hQ : ∀ c ∈ Q.data, MORSE_MAP c.toUpper = none) :
    encodeMorse (P ++ M ++ Q) = encodeMorse M ∧ encodeMorse "SOS" = "... --- ..." := by
  refine ⟨?_, by decide⟩
  have hMd : M.data ≠ [] := data_ne_nil_of_ne_empty hM
  have htm : M.data.map (fun c => encTok c.toUpper) ≠ [] := by
    cases hdata : M.data with
    | nil => exact absurd hdata hMd
    | cons a l => simp [hdata]
  have hallM := tokens_ok hsup
  have hb := joinSepL_boundaries _ htm hallM
  have hepP : ∀ x ∈ P.data.map (fun c => encTok c.toUpper), x = [] := by
    intro x hx
    obtain ⟨c, hc, rfl⟩ := List.mem_map.mp hx
    simp [encTok, hP c hc]
  have hepQ : ∀ x ∈ Q.data.map (fun c => encTok c.toUpper), x = [] := by
    intro x hx
    obtain ⟨c, hc, rfl⟩ := List.mem_map.mp hx
    simp [encTok, hQ c hc]
  have e0 : encodeTokens (P ++ M ++ Q)
      = P.data.map (fun c => encTok c.toUpper)
        ++ (M.data.map (fun c => encTok c.toUpper)
            ++ Q.data.map (fun c => encTok c.toUpper)) := by
    rw [encodeTokens_eq]
    rw [show (P ++ M ++ Q).data = P.data ++ (M.data ++ Q.data) by
      rw [String.data_append, String.data_append, List.append_assoc]]
    rw [List.map_append, List.map_append]
  have h1 : M.data.map (fun c => encTok c.toUpper)
      ++ Q.data.map (fun c => encTok c.toUpper) ≠ [] := by
    intro h
    exact htm (List.append_eq_nil.mp h).1
  have e1 : joinSepL (encodeTokens (P ++ M ++ Q))
      = (P.data.map (fun c => encTok c.toUpper)).map (fun _ => ' ')
        ++ (joinSepL (M.data.map (fun c => encTok c.toUpper))
            ++ (Q.data.map (fun c => encTok c.toUpper)).map (fun _ => ' ')) := by
    rw [e0, joinSepL_empties_before _ hepP _ h1, joinSepL_empties_after _ htm _ hepQ]
  have hw1 : ∀ c ∈ (P.data.map (fun c => encTok c.toUpper)).map (fun _ => ' '),
      c.isWhitespace = true := by
    intro c hc
    obtain ⟨_, _, rfl⟩ := List.mem_map.mp hc
    decide
  have hw2 : ∀ c ∈ (Q.data.map (fun c => encTok c.toUpper)).map (fun _ => ' '),
      c.isWhitespace = true := by
    intro c hc
    obtain ⟨_, _, rfl⟩ := List.mem_map.mp hc
    decide
  have e2 : jsTrimL (joinSepL (encodeTokens (P ++ M ++ Q)))
      = joinSepL (M.data.map (fun c => encTok c.toUpper)) := by
    rw [e1, ← List.append_assoc]
    exact jsTrimL_padded hw1 hw2 hb.1 hb.2.1 hb.2.2
  unfold encodeMorse
  rw [e2, encodeTokens_eq, jsTrimL_eq_self hb.2.1 hb.2.2]

theorem c3_boundary_drop_amended_witness :
    encodeMorse ("!" ++ "so s" ++ "?!") = encodeMorse "so s" ∧
    encodeMorse "SOS" = "... --- ..." :=
  c3_boundary_drop_amended "!" "so s" "?!" (by decide) (by decide) (by decide) (by decide)

/-- C4: the inverse table is exactly the reverse of the forward table: every
pair (c, m) of MORSE_MAP reverse-maps m back to c, the inverse table has no
other entries, and a lookup missing from either table yields the defined
unknown marker of its use site (the empty token for encode, `?` for decode)
rather than failing. -/
theorem c4_reverse_exact :
    (∀ p ∈ morsePairs, REVERSE_MORSE_MAP p.2 = some p.1) ∧
    (∀ (m : String) (c : Char), REVERSE_MORSE_MAP m = some c → (c, m) ∈ morsePairs) ∧
    (∀ ch : Char, MORSE_MAP ch = none → encTok ch = []) ∧
    (∀ code : String, REVERSE_MORSE_MAP code = none → decodeToken code = "?") := by
  refine ⟨by decide, ?_, ?_, ?_⟩
  · intro m c h
    obtain ⟨p, hp, he⟩ := List.mem_map.mp (recordGet_mem h)
    obtain ⟨h1, h2⟩ := Prod.mk.injEq _ _ _ _ ▸ he
    rw [← h1, ← h2]
    exact hp
  · intro ch h
    simp [encTok, h]
  · intro code h
    have hslash : code ≠ "/" := by
      intro e
      rw [e] at h
      exact absurd h (by decide)
    unfold decodeToken
    rw [h, if_neg hslash]

theorem c4_reverse_exact_witness :
    REVERSE_MORSE_MAP ".-" = some 'A' ∧ ('B', "-...") ∈ morsePairs ∧
    encTok '!' = [] ∧ decodeToken "--------" = "?" :=
  ⟨c4_reverse_exact.1 ('A', ".-") (by decide),
   c4_reverse_exact.2.1 "-..." 'B' (by decide),
   c4_reverse_exact.2.2.1 '!' (by decide),
   c4_reverse_exact.2.2.2 "--------" (by decide)⟩

/-- C5: on key-up the press duration `now - lastPressTime` classifies the
press as a dot when it is below 200 ms and a dash otherwise, and the symbol
is appended to the in-progress buffer; likewise for a full down/up pair. -/
theorem c5_dot_dash :
    (∀ (s : KeyerState) (now : Int),
       (handleKeyUp now s).currentSequence
         = s.currentSequence ++ (if now - s.lastPressTime < 200 then "." else "-")) ∧
    (∀ (s : KeyerState) (t u : Int), s.isMuted = false → s.timerDeadline = none →
       (run s [KeyEvent.down t, KeyEvent.up u]).currentSequence
         = s.currentSequence ++ (if u - t < 200 then "." else "-")) := by
  constructor
  · intro s now
    rfl
  · intro s t u hm ht
    simp [run, step, fireTimerIfDue, ht, handleKeyDown, hm, handleKeyUp]

theorem c5_dot_dash_witness :
    (run ⟨"", false, false, 0, "", none, false⟩
       [KeyEvent.down 1000, KeyEvent.up 1150]).currentSequence = "." ∧
    (run ⟨"", false, false, 0, "", none, false⟩
       [KeyEvent.down 1000, KeyEvent.up 1250]).currentSequence = "-" := by
  constructor
  · rw [c5_dot_dash.2 ⟨"", false, false, 0, "", none, false⟩ 1000 1150 rfl rfl]
    decide
  · rw [c5_dot_dash.2 ⟨"", false, false, 0, "", none, false⟩ 1000 1250 rfl rfl]
    decide

/-- C6: when the commit timer fires while due and the in-progress buffer is
nonempty, the buffer is flushed into the Morse field (the field becomes
field + " " + buffer when nonempty, the buffer alone when empty) and the
buffer is cleared. -/
theorem c6_commit_flush (s : KeyerState) (d now : Int)
    (hd : s.timerDeadline = some d) (hdue : d ≤ now) (hseq : s.currentSequence ≠ "") :
    (fireTimerIfDue now s).inputMorse
      = (if s.inputMorse = "" then s.currentSequence
         else s.inputMorse ++ " " ++ s.currentSequence) ∧
    (fireTimerIfDue now s).currentSequence = "" := by
  have he : fireTimerIfDue now s = commitFlush s := by
    unfold fireTimerIfDue
    rw [hd]
    simp [hdue]
  rw [he]
  unfold commitFlush
  rw [if_pos hseq]
  refine ⟨?_, rfl⟩
  by_cases him : s.inputMorse = "" <;> simp [him]

theorem c6_commit_flush_witness :
    (fireTimerIfDue 700 ⟨"-.-", false, false, 0, ".-", some 600, false⟩).inputMorse
      = "-.- .-" ∧
    (fireTimerIfDue 700 ⟨"-.-", false, false, 0, ".-", some 600, false⟩).currentSequence
      = "" ∧
    (fireTimerIfDue 700 ⟨"", false, false, 0, "...", some 600, false⟩).inputMorse
      = "..." := by
  have h1 := c6_commit_flush ⟨"-.-", false, false, 0, ".-", some 600, false⟩ 600 700
    rfl (by decide) (by decide)
  have h2 := c6_commit_flush ⟨"", false, false, 0, "...", some 600, false⟩ 600 700
    rfl (by decide) (by decide)
  refine ⟨?_, h1.2, ?_⟩
  · rw [h1.1]; decide
  · rw [h2.1]; decide

/-- C8: when the mute flag is set, a key-down handler invocation changes
nothing at all: the state (signal flag, tone, last-press timestamp, pending
timer, buffered symbols, fields) is returned unchanged. -/
theorem c8_muted_noop (s : KeyerState) (now : Int) (h : s.isMuted = true) :
    handleKeyDown now s = s := by
  simp [handleKeyDown, h]

theorem c8_muted_noop_witness :
    handleKeyDown 500 ⟨"-", true, false, 3, ".", some 9, false⟩
      = ⟨"-", true, false, 3, ".", some 9, false⟩ :=
  c8_muted_noop ⟨"-", true, false, 3, ".", some 9, false⟩ 500 rfl

/-- C10: the key-up handler is not guarded by the mute flag: in every state
(muted or not, press active or not) it deactivates the signal, stops the
tone, appends the dot/dash symbol computed from the stored (possibly stale)
last-press timestamp to the in-progress buffer, restarts the 600 ms commit
timer, and leaves the mute flag as it was. -/
theorem c10_keyup_unguarded (s : KeyerState) (now : Int) :
    (handleKeyUp now s).signalActive = false ∧
    (handleKeyUp now s).toneOn = false ∧
    (handleKeyUp now s).currentSequence
      = s.currentSequence ++ (if now - s.lastPressTime < 200 then "." else "-") ∧
    (handleKeyUp now s).timerDeadline = some (now + 600) ∧
    (handleKeyUp now s).isMuted = s.isMuted :=
  ⟨rfl, rfl, rfl, rfl, rfl⟩

/-- C7: a key-down before the pending 600 ms commit timer fires cancels that
timer, so two presses within 600 ms of each other accumulate their symbols
into one committed group (for a dot then a dash, `.-`) rather than flushing
as separate groups: after the first press the timer is pending for
`u1 + 600`; the second key-down at `d2 < u1 + 600` clears it without
flushing; the second key-up appends its symbol to the same buffer; and the
eventual commit flushes both symbols as a single space-separated group. -/
theorem c7_accumulate_one_group (s : KeyerState) (t1 u1 d2 u2 : Int)
    (hm : s.isMuted = false) (ht : s.timerDeadline = none) (hs0 : s.currentSequence = "")
    (ho1 : t1 ≤ u1) (ho2 : u1 ≤ d2) (hwin : d2 < u1 + 600) (ho3 : d2 ≤ u2) :
    (run s [KeyEvent.down t1, KeyEvent.up u1]).timerDeadline = some (u1 + 600) ∧
    (run s [KeyEvent.down t1, KeyEvent.up u1, KeyEvent.down d2]).timerDeadline = none ∧
    (run s [KeyEvent.down t1, KeyEvent.up u1, KeyEvent.down d2]).currentSequence
      = (if u1 - t1 < 200 then "." else "-") ∧
    (run s [KeyEvent.down t1, KeyEvent.up u1, KeyEvent.down d2]).inputMorse = s.inputMorse ∧
    (run s [KeyEvent.down t1, KeyEvent.up u1, KeyEvent.down d2, KeyEvent.up u2]).currentSequence
      = (if u1 - t1 < 200 then "." else "-") ++ (if u2 - d2 < 200 then "." else "-") ∧
    (fireTimerIfDue (u2 + 600)
        (run s [KeyEvent.down t1, KeyEvent.up u1, KeyEvent.down d2, KeyEvent.up u2])).inputMorse
      = (if s.inputMorse = ""
         then (if u1 - t1 < 200 then "." else "-") ++ (if u2 - d2 < 200 then "." else "-")
         else s.inputMorse ++ " "
           ++ ((if u1 - t1 < 200 then "." else "-") ++ (if u2 - d2 < 200 then "." else "-"))) ∧
    (fireTimerIfDue (u2 + 600)
        (run s [KeyEvent.down t1, KeyEvent.up u1, KeyEvent.down d2, KeyEvent.up u2])).currentSequence
      = "" := by
  obtain ⟨im, mu, sa, lp, cs, td, tn⟩ := s
  have hm2 : mu = false := hm
  have ht2 : td = none := ht
  have hs2 : cs = "" := hs0
  subst hm2 ht2 hs2
  have hnotdue : ¬ (u1 + 600 ≤ d2) := by omega
  have e1 : run ⟨im, false, sa, lp, "", none, tn⟩ [KeyEvent.down t1, KeyEvent.up u1]
      = ⟨im, false, false, t1, "" ++ (if u1 - t1 < 200 then "." else "-"),
         some (u1 + 600), false⟩ := by
    simp [run, step, fireTimerIfDue, handleKeyDown, handleKeyUp]
  have e2 : run ⟨im, false, sa, lp, "", none, tn⟩
        [KeyEvent.down t1, KeyEvent.up u1, KeyEvent.down d2]
      = ⟨im, false, true, d2, "" ++ (if u1 - t1 < 200 then "." else "-"), none, true⟩ := by
    have hsplit : run ⟨im, false, sa, lp, "", none, tn⟩
          [KeyEvent.down t1, KeyEvent.up u1, KeyEvent.down d2]
        = step (run ⟨im, false, sa, lp, "", none, tn⟩ [KeyEvent.down t1, KeyEvent.up u1])
            (KeyEvent.down d2) := by
      simp [run]
    rw [hsplit, e1]
    simp [step, fireTimerIfDue, hnotdue, handleKeyDown]
  have e3 : run ⟨im, false, sa, lp, "", none, tn⟩
        [KeyEvent.down t1, KeyEvent.up u1, KeyEvent.down d2, KeyEvent.up u2]
      = ⟨im, false, false, d2,
         ("" ++ (if u1 - t1 < 200 then "." else "-")) ++ (if u2 - d2 < 200 then "." else "-"),
         some (u2 + 600), false⟩ := by
    have hsplit : run ⟨im, false, sa, lp, "", none, tn⟩
          [KeyEvent.down t1, KeyEvent.up u1, KeyEvent.down d2, KeyEvent.up u2]
        = step (run ⟨im, false, sa, lp, "", none, tn⟩
            [KeyEvent.down t1, KeyEvent.up u1, KeyEvent.down d2]) (KeyEvent.up u2) := by
      simp [run]
    rw [hsplit, e2]
    simp [step, fireTimerIfDue, handleKeyUp]
  have hne : (("" ++ (if u1 - t1 < 200 then "." else "-"))
      ++ (if u2 - d2 < 200 then "." else "-")) ≠ "" := by
    by_cases hc1 : u1 - t1 < 200 <;> by_cases hc2 : u2 - d2 < 200 <;>
      simp [hc1, hc2]
  refine ⟨?_, ?_, ?_, ?_, ?_, ?_, ?_⟩
  · rw [e1]
  · rw [e2]
  · rw [e2]; exact rfl
  · rw [e2]
  · rw [e3]; exact rfl
  · rw [e3]
    simp only [fireTimerIfDue, le_refl, if_true]
    unfold commitFlush
    rw [if_pos hne]
    by_cases him : im = "" <;> simp [him]
  · rw [e3]
    simp only [fireTimerIfDue, le_refl, if_true]
    unfold commitFlush
    rw [if_pos hne]

theorem c7_accumulate_one_group_witness :
    (run ⟨"", false, false, 0, "", none, false⟩
       [KeyEvent.down 1000, KeyEvent.up 1100, KeyEvent.down 1400]).timerDeadline = none ∧
    (fireTimerIfDue (1650 + 600)
       (run ⟨"", false, false, 0, "", none, false⟩
          [KeyEvent.down 1000, KeyEvent.up 1100, KeyEvent.down 1400,
           KeyEvent.up 1650])).inputMorse = ".-" := by
  have h := c7_accumulate_one_group ⟨"", false, false, 0, "", none, false⟩ 1000 1100 1400 1650
    rfl rfl rfl (by decide) (by decide) (by decide) (by decide)
  refine ⟨h.2.1, ?_⟩
  rw [h.2.2.2.2.2.1]
  decide
